import Mathlib

/-!
Shallow embedding of the `hnyfuck` interpreter (`src/main.rs`).

The interpreter executes programs in two surface dialects — plain Brainfuck
characters and a whitespace-separated word-pair dialect over the words
`Happy`, `New`, `Year` — against a growable tape of byte cells.

Modelling conventions:
* a Rust `String` token is modelled as its character sequence `List Char`;
* byte cells (`u8`) are modelled as `Nat` with explicit `% 256` wraparound;
* the stdin-backed `InputStream` is modelled as the list of bytes it will
  still yield (`[]` = exhausted);
* `print!("{}", cell as char)` writes the UTF-8 encoding of the code point
  `cell`, so the observable output is modelled at the byte level;
* the possibly non-terminating `HnyFuck::run` is modelled with explicit
  fuel, one unit per dispatched opcode pair and per loop iteration bound;
* a `panic!("Invalid token")` is the `Outcome.invalidToken` result, and a
  `panic!("Invalid character")` in `from_brainfuck` is `Option.none`.
-/

/-- Surface token: the character data of one Rust `String` token. -/
abbrev Token := List Char

/-- Character data of the word `Happy`. -/
def wHappy : Token := ['H', 'a', 'p', 'p', 'y']

/-- Character data of the word `New`. -/
def wNew : Token := ['N', 'e', 'w']

/-- Character data of the word `Year`. -/
def wYear : Token := ['Y', 'e', 'a', 'r']

/-- Constant `SHIFT_LEFT: ("Happy", "New")`. -/
def SHIFT_LEFT : Token × Token := (wHappy, wNew)

/-- Constant `SHIFT_RIGHT: ("New", "Year")`. -/
def SHIFT_RIGHT : Token × Token := (wNew, wYear)

/-- Constant `INCREMENT: ("Year", "Happy")`. -/
def INCREMENT : Token × Token := (wYear, wHappy)

/-- Constant `DECREMENT: ("Happy", "Year")`. -/
def DECREMENT : Token × Token := (wHappy, wYear)

/-- Constant `OUTPUT: ("Year", "New")`. -/
def OUTPUT : Token × Token := (wYear, wNew)

/-- Constant `INPUT: ("New", "Happy")`. -/
def INPUT : Token × Token := (wNew, wHappy)

/-- Constant `LOOP_START: ("Happy", "Happy")`. -/
def LOOP_START : Token × Token := (wHappy, wHappy)

/-- Constant `LOOP_END: ("New", "New")`. -/
def LOOP_END : Token × Token := (wNew, wNew)

/-- The eight abstract opcodes, named after the word-pair constants the
source uses for them. -/
inductive Opcode
  | shiftLeft
  | shiftRight
  | increment
  | decrement
  | output
  | input
  | loopStart
  | loopEnd
deriving DecidableEq

/-- Character table of `from_brainfuck`: each Brainfuck character maps to
one word-pair constant; any other character panics (`none`). -/
def charToPair : Char → Option (Token × Token)
  | '>' => some SHIFT_RIGHT
  | '<' => some SHIFT_LEFT
  | '+' => some INCREMENT
  | '-' => some DECREMENT
  | '.' => some OUTPUT
  | ',' => some INPUT
  | '[' => some LOOP_START
  | ']' => some LOOP_END
  | _ => none

/-- Reading of a word pair as an opcode: the inverse direction of the eight
constants (the table `HnyFuck::run` dispatches over). -/
def pairToOp (t1 t2 : Token) : Option Opcode :=
  if (t1, t2) = SHIFT_LEFT then some .shiftLeft
  else if (t1, t2) = SHIFT_RIGHT then some .shiftRight
  else if (t1, t2) = INCREMENT then some .increment
  else if (t1, t2) = DECREMENT then some .decrement
  else if (t1, t2) = OUTPUT then some .output
  else if (t1, t2) = INPUT then some .input
  else if (t1, t2) = LOOP_START then some .loopStart
  else if (t1, t2) = LOOP_END then some .loopEnd
  else none

/-- Direct byte-character lexing: the character table read as producing the
opcode that owns the rendered pair. -/
def charToOp (c : Char) : Option Opcode :=
  (charToPair c).bind fun p => pairToOp p.1 p.2

/-- The `format!("{} {}", a, b)` rendering of one word pair. -/
def renderPair (p : Token × Token) : List Char :=
  p.1 ++ ' ' :: p.2

/-- Rust `Vec::join(" ")`: concatenation with a single space between
consecutive fragments. -/
def joinSpace : List (List Char) → List Char
  | [] => []
  | [x] => x
  | x :: y :: rest => x ++ ' ' :: joinSpace (y :: rest)

/-- The word-pair source text `from_brainfuck` builds for a given sequence
of rendered pairs. -/
def hnyCode (ps : List (Token × Token)) : List Char :=
  joinSpace (ps.map renderPair)

/-- Accumulator worker for `splitWhitespace`: `acc` holds the reversed
characters of the word currently being read. -/
def splitWhitespaceAux : List Char → List Char → List Token
  | [], acc => if acc = [] then [] else [acc.reverse]
  | c :: cs, acc =>
    if c.isWhitespace then
      if acc = [] then splitWhitespaceAux cs []
      else acc.reverse :: splitWhitespaceAux cs []
    else splitWhitespaceAux cs (c :: acc)

/-- Rust `str::split_whitespace` on character data: maximal runs of
non-whitespace characters, with whitespace (and empty fragments) dropped.
This is what `TokenStream::from_str` uses to produce tokens. -/
def splitWhitespace (l : List Char) : List Token :=
  splitWhitespaceAux l []

/-- Option-valued map: `none` as soon as `f` fails on an element. -/
def mapOpt (f : α → Option β) : List α → Option (List β)
  | [] => some []
  | a :: l =>
    match f a with
    | none => none
    | some b =>
      match mapOpt f l with
      | none => none
      | some bs => some (b :: bs)

/-- Model of `from_brainfuck`: map every character through the table
(panicking on an unrecognized one), render the pairs into one source
string joined by spaces, and split that string back into the token stream
handed to `HnyFuck::new`. -/
def from_brainfuck (code : List Char) : Option (List Token) :=
  (mapOpt charToPair code).map fun ps => splitWhitespace (hnyCode ps)

/-- Word-pair lexing of a token stream into opcodes, pairwise in order, the
way `next2` consumes it: a lone trailing token ends the stream, a pair
outside the table fails. -/
def lexPairs : List Token → Option (List Opcode)
  | [] => some []
  | [_] => some []
  | t1 :: t2 :: rest =>
    match pairToOp t1 t2 with
    | none => none
    | some op =>
      match lexPairs rest with
      | none => none
      | some ops => some (op :: ops)

/-- Flat token stream of a sequence of word pairs, two tokens per pair. -/
def pairTokens : List (Token × Token) → List Token
  | [] => []
  | p :: rest => p.1 :: p.2 :: pairTokens rest

/-- Model of `struct State`: the cell vector, the cursor, and the bytes the
stdin-backed `InputStream` will still yield. -/
structure State where
  state : List Nat
  index : Nat
  inp : List Nat
deriving DecidableEq

/-- Model of `State::new()`: a single zero cell with the cursor on it,
wrapping the given input stream. -/
def State.new (inp : List Nat) : State :=
  { state := [0], index := 0, inp := inp }

/-- Model of `State::shift_left`: at index 0 push a fresh zero cell at the
front (the cursor keeps index 0), otherwise decrement the cursor. -/
def State.shift_left (s : State) : State :=
  match s.index with
  | 0 => { s with state := 0 :: s.state }
  | n + 1 => { s with index := n }

/-- Model of `State::shiht_right` (source spelling): at the highest index
append a fresh zero cell and step onto it, otherwise increment the
cursor. -/
def State.shiht_right (s : State) : State :=
  if s.index = s.state.length - 1 then
    { s with state := s.state ++ [0], index := s.index + 1 }
  else
    { s with index := s.index + 1 }

/-- Model of `State::increment`: add 1 to the cell at the cursor with `u8`
wraparound; out of range (unreachable) it is a no-op, as `get_mut`
yielding `None` is. -/
def State.increment (s : State) : State :=
  { s with state := s.state.set s.index ((s.state.getD s.index 0 + 1) % 256) }

/-- Model of `State::decrement`: subtract 1 with `u8` wraparound (adding
255 modulo 256). -/
def State.decrement (s : State) : State :=
  { s with state := s.state.set s.index ((s.state.getD s.index 0 + 255) % 256) }

/-- UTF-8 encoding of a code point below 256: one byte below 128, two bytes
(`0xC2`/`0xC3` then a continuation byte) from 128 to 255. -/
def utf8Encode (v : Nat) : List Nat :=
  if v < 128 then [v] else [192 + v / 64, 128 + v % 64]

/-- Model of `State::output`: the bytes `print!("{}", cell as char)` writes
for the cell at the cursor (nothing when the cursor is out of range, as
`get` yielding `None` prints nothing). -/
def State.output (s : State) : List Nat :=
  match s.state.get? s.index with
  | some cell => utf8Encode cell
  | none => []

/-- Model of `State::input`: when the cursor is in range, pull one byte
from the input stream into the cell; an exhausted stream leaves the state
unchanged. -/
def State.input (s : State) : State :=
  if s.index < s.state.length then
    match s.inp with
    | [] => s
    | b :: rest => { s with state := s.state.set s.index b, inp := rest }
  else s

/-- Model of `State::cond`: true iff the cell at the cursor exists and is
non-zero. -/
def State.cond (s : State) : Bool :=
  match s.state.get? s.index with
  | some cell => cell != 0
  | none => false

/-- Model of `TokenStream::next2`: pop two tokens, or `none` at the end of
the stream (a lone trailing token is consumed and dropped). -/
def next2 : List Token → Option (Token × Token × List Token)
  | t1 :: t2 :: rest => some (t1, t2, rest)
  | _ => none

/-- Result of an execution: normal completion with final state and emitted
bytes, a fatal `Invalid token` panic carrying the bytes emitted before it,
or fuel exhaustion of the model. -/
inductive Outcome
  | ok (s : State) (out : List Nat)
  | invalidToken (out : List Nat)
  | fuelOut
deriving DecidableEq

/-- Prepend bytes already emitted to the output carried by an outcome. -/
def Outcome.withOut (b : List Nat) : Outcome → Outcome
  | .ok s out => .ok s (b ++ out)
  | .invalidToken out => .invalidToken (b ++ out)
  | .fuelOut => .fuelOut

/-- Model of the loop-body scan in `HnyFuck::run`: starting at the given
nesting depth, collect tokens pairwise into the body until the `LOOP_END`
pair that brings the depth to 0 (which is consumed but not collected);
returns the body and the remaining outer stream. Exhausting the stream
(including on a lone trailing token, which `next2` consumes) ends the scan
with whatever was collected. -/
def collectBody : Nat → List Token → List Token × List Token
  | _, [] => ([], [])
  | _, [_] => ([], [])
  | depth, t1 :: t2 :: rest =>
    if (t1, t2) = LOOP_START then
      let p := collectBody (depth + 1) rest
      (t1 :: t2 :: p.1, p.2)
    else if (t1, t2) = LOOP_END then
      if depth = 1 then ([], rest)
      else
        let p := collectBody (depth - 1) rest
        (t1 :: t2 :: p.1, p.2)
    else
      let p := collectBody depth rest
      (t1 :: t2 :: p.1, p.2)

/-- Do-while driver of the loop construct, abstracted over the runner used
for one pass over the body: execute the body once, and re-execute it from
the start as long as the condition holds afterwards, within the given
iteration bound. -/
def doWhileF (runner : List Token → State → Outcome) :
    Nat → List Token → State → Outcome
  | 0, _, _ => .fuelOut
  | k + 1, body, s =>
    match runner body s with
    | .ok s' out =>
      if s'.cond then (doWhileF runner k body s').withOut out
      else .ok s' out
    | e => e

/-- Resumption after a finished loop: when the do-while driver completed
normally (`self.state = nest.state`), continue running the rest of the
outer stream with the returned state and prepend the loop's output;
otherwise propagate the loop's abnormal outcome. -/
def loopCont (r : List Token → State → Outcome) (rest2 : List Token) :
    Outcome → Outcome
  | .ok s' out => (r rest2 s').withOut out
  | e => e

/-- Model of `HnyFuck::run` with fuel: dispatch token pairs in order; on
`LOOP_START` carve out the loop body and drive it as a do-while (the
nested executor receiving the state and giving it back), then resume after
the consumed tokens; a pair matching no arm panics with `Invalid token`. -/
def run : Nat → List Token → State → Outcome
  | 0, _, _ => .fuelOut
  | fuel + 1, ts, s =>
    match next2 ts with
    | none => .ok s []
    | some (t1, t2, rest) =>
      if (t1, t2) = SHIFT_LEFT then run fuel rest s.shift_left
      else if (t1, t2) = SHIFT_RIGHT then run fuel rest s.shiht_right
      else if (t1, t2) = INCREMENT then run fuel rest s.increment
      else if (t1, t2) = DECREMENT then run fuel rest s.decrement
      else if (t1, t2) = OUTPUT then (run fuel rest s).withOut s.output
      else if (t1, t2) = INPUT then run fuel rest s.input
      else if (t1, t2) = LOOP_START then
        let p := collectBody 1 rest
        loopCont (run fuel) p.2 (doWhileF (run fuel) fuel p.1 s)
      else .invalidToken []

/-- The loop driver as `run` invokes it at a given fuel. -/
def doWhile (fuel : Nat) : List Token → State → Outcome :=
  doWhileF (run fuel) fuel

/-- Pairs of a token stream collected to its end (a lone trailing token is
dropped): the body an unterminated loop scan produces. -/
def collectPairs : List Token → List Token
  | [] => []
  | [_] => []
  | t1 :: t2 :: rest => t1 :: t2 :: collectPairs rest

/-- Decides whether a loop scan started at the given depth exhausts the
stream without the depth ever returning to 0 (an unterminated loop). -/
def unterminatedB : Nat → List Token → Bool
  | _, [] => true
  | _, [_] => true
  | depth, t1 :: t2 :: rest =>
    if (t1, t2) = LOOP_START then unterminatedB (depth + 1) rest
    else if (t1, t2) = LOOP_END then
      if depth = 1 then false else unterminatedB (depth - 1) rest
    else unterminatedB depth rest

/-- Big-step execution: some fuel completes the token stream normally with
the given final state and output. -/
def ExecOk (ts : List Token) (s s' : State) (out : List Nat) : Prop :=
  ∃ fuel, run fuel ts s = .ok s' out

/-- Do-while iteration of a loop body: the body executes at least once;
after a pass the iteration stops if the condition fails and repeats from
the start of the body otherwise, concatenating the emitted output. -/
inductive Iterates (body : List Token) : State → State → List Nat → Prop
  | last (s s' : State) (out : List Nat) :
      ExecOk body s s' out → s'.cond = false → Iterates body s s' out
  | step (s s' s'' : State) (out out' : List Nat) :
      ExecOk body s s' out → s'.cond = true → Iterates body s' s'' out' →
      Iterates body s s'' (out ++ out')

/-- A usable surface word: non-empty and free of whitespace characters. -/
def goodTok (t : Token) : Prop :=
  t ≠ [] ∧ ∀ c ∈ t, c.isWhitespace = false

set_option maxRecDepth 8000

/-! ## Helper lemmas -/

theorem get?_set_self_of_get? {l : List Nat} {i v : Nat} (w : Nat)
    (h : l.get? i = some v) : (l.set i w).get? i = some w := by
  have hi : i < l.length := by
    by_contra hn
    rw [List.get?_eq_getElem?, List.getElem?_eq_none (by omega)] at h
    exact Option.noConfusion h
  rw [List.get?_eq_getElem?, List.getElem?_set_self hi]

theorem getD_of_get? {l : List Nat} {i v : Nat} (h : l.get? i = some v) :
    l.getD i 0 = v := by
  rw [List.getD_eq_getElem?_getD, ← List.get?_eq_getElem?, h]
  rfl

theorem mapOpt_none_of_mem {f : α → Option β} {cs : List α} {c : α}
    (hc : c ∈ cs) (h : f c = none) : mapOpt f cs = none := by
  induction cs with
  | nil => cases hc
  | cons a l ih =>
    rcases List.mem_cons.mp hc with rfl | hmem
    · simp [mapOpt, h]
    · cases ha : f a with
      | none => simp [mapOpt, ha]
      | some b => simp [mapOpt, ha, ih hmem]

theorem pairToOp_none_elim {t1 t2 : Token} (h : pairToOp t1 t2 = none) :
    (t1, t2) ≠ SHIFT_LEFT ∧ (t1, t2) ≠ SHIFT_RIGHT ∧ (t1, t2) ≠ INCREMENT ∧
    (t1, t2) ≠ DECREMENT ∧ (t1, t2) ≠ OUTPUT ∧ (t1, t2) ≠ INPUT ∧
    (t1, t2) ≠ LOOP_START := by
  refine ⟨?_, ?_, ?_, ?_, ?_, ?_, ?_⟩ <;> intro he <;>
    simp only [pairToOp, he] at h <;> revert h <;> decide

/-! ## Claim theorems -/

/-- C5: an Input opcode against an exhausted input source leaves the whole
state, in particular the cell at the cursor, unchanged, and raises no
error. -/
theorem input_exhausted_noop (s : State) (h : s.inp = []) :
    s.input = s := by
  unfold State.input
  rw [h]
  split <;> rfl

/-- Witness for `input_exhausted_noop` at a concrete state. -/
theorem input_exhausted_noop_inst :
    (State.mk [7] 0 []).input = State.mk [7] 0 [] :=
  input_exhausted_noop (State.mk [7] 0 []) rfl

/-- C3 counterexample: with the tape holding a single cell of value 1 and
the cursor on it, `shift_left` inserts a fresh zero cell; the cursor (still
index 0) now reads 0, not the 1 it read before, so it does not stay
pointing at the same logical cell. -/
theorem shift_left_cursor_value_changes :
    (State.mk [1] 0 []).shift_left = State.mk [0, 1] 0 [] ∧
    (State.mk [1] 0 []).state.get? 0 = some 1 ∧
    (State.mk [1] 0 []).shift_left.state.get?
      (State.mk [1] 0 []).shift_left.index = some 0 := by
  decide

/-- C3 (amended): `shift_left` at the lowest existing index inserts a fresh
zero cell at that position — all existing cells shift up by one index and
the cursor, staying at index 0, now points at the newly inserted zero cell
(the previously current cell sits at index 1); at any other index it
decrements the cursor. -/
theorem shift_left_amended (s : State) :
    (s.index = 0 → s.shift_left = State.mk (0 :: s.state) 0 s.inp) ∧
    (∀ n, s.index = n + 1 → s.shift_left = State.mk s.state n s.inp) := by
  obtain ⟨st, i, inp⟩ := s
  constructor
  · intro h
    simp only at h
    subst h
    rfl
  · intro n h
    simp only at h
    subst h
    rfl

/-- Witness for `shift_left_amended`: the boundary case on a one-cell
tape. -/
theorem shift_left_amended_inst :
    (State.mk [1] 0 []).shift_left = State.mk (0 :: [1]) 0 [] :=
  (shift_left_amended (State.mk [1] 0 [])).1 rfl

/-- C4: `increment` and `decrement` act on the cell at the cursor modulo
256 and never fail: 255 + 1 wraps to 0, 0 - 1 wraps to 255, and 256
increments starting from the fresh single-zero-cell tape restore it
exactly. -/
theorem cell_arith_mod256 :
    (∀ (s : State) (v : Nat), s.state.get? s.index = some v →
      s.increment.state.get? s.index = some ((v + 1) % 256) ∧
      s.decrement.state.get? s.index = some ((v + 255) % 256)) ∧
    (State.mk [255] 0 []).increment = State.mk [0] 0 [] ∧
    (State.mk [0] 0 []).decrement = State.mk [255] 0 [] ∧
    State.increment^[256] (State.new []) = State.new [] := by
  refine ⟨?_, by decide, by decide, by decide⟩
  intro s v h
  constructor
  · simp only [State.increment, getD_of_get? h]
    exact get?_set_self_of_get? _ h
  · simp only [State.decrement, getD_of_get? h]
    exact get?_set_self_of_get? _ h

/-- Witness for `cell_arith_mod256` on a concrete one-cell state. -/
theorem cell_arith_mod256_inst :
    (State.mk [5] 0 []).increment.state.get? 0 = some ((5 + 1) % 256) ∧
    (State.mk [5] 0 []).decrement.state.get? 0 = some ((5 + 255) % 256) :=
  cell_arith_mod256.1 (State.mk [5] 0 []) 5 rfl

/-- C6 counterexample: a stream consisting of the single token `Happy`
(odd token count) makes `run` finish normally with the state untouched —
no `Invalid token` panic is raised for the unpaired trailing token. -/
theorem odd_tokens_run_ok :
    run 1 [wHappy] (State.new []) = .ok (State.new []) [] := by
  decide

/-- C6 (amended): an unpaired trailing token in the word-pair stream is
silently consumed and dropped — `next2` answers `none` on a one-token
stream, and dispatch thereupon ends the run normally rather than raising
an `InvalidToken` error. -/
theorem trailing_token_silently_dropped :
    (∀ t : Token, next2 [t] = none) ∧
    (∀ (fuel : Nat) (s : State) (t : Token), run (fuel + 1) [t] s = .ok s []) := by
  exact ⟨fun t => rfl, fun fuel s t => rfl⟩

/-- C8 counterexample: a cell holding 128 is printed as the character
U+0080, whose UTF-8 encoding is the two bytes 194 and 128 — not exactly
one raw byte holding the cell value. -/
theorem output_nonascii_two_bytes :
    (State.mk [128] 0 []).output = [194, 128] ∧
    (State.mk [128] 0 []).output.length ≠ 1 := by
  decide

/-- C8 (amended): an Output opcode emits the UTF-8 encoding of the cell at
the cursor interpreted as a character code, with no framing, delimiter or
newline added: exactly one raw byte equal to the cell value for values
0–127, and exactly two bytes (from which the value is recoverable) for
values 128–255. -/
theorem output_emits_utf8 :
    (∀ (s : State) (v : Nat), s.state.get? s.index = some v →
      s.output = utf8Encode v) ∧
    (∀ v, v < 128 → utf8Encode v = [v]) ∧
    (∀ v, 128 ≤ v → v < 256 →
      (utf8Encode v).length = 2 ∧
      64 * ((utf8Encode v).getD 0 0 - 192) + ((utf8Encode v).getD 1 0 - 128) = v) ∧
    (∀ (fuel : Nat) (rest : List Token) (s : State),
      run (fuel + 1) (OUTPUT.1 :: OUTPUT.2 :: rest) s =
        (run fuel rest s).withOut s.output) := by
  refine ⟨?_, ?_, ?_, ?_⟩
  · intro s v h
    simp only [State.output, h]
  · intro v hv
    simp [utf8Encode, hv]
  · intro v h1 h2
    rw [utf8Encode, if_neg (by omega)]
    refine ⟨rfl, ?_⟩
    simp only [List.getD]
    simp
    omega
  · intro fuel rest s
    rfl

/-- Witness for `output_emits_utf8` at concrete cell values. -/
theorem output_emits_utf8_inst :
    (State.mk [65] 0 []).output = utf8Encode 65 ∧
    utf8Encode 65 = [65] ∧
    (utf8Encode 200).length = 2 ∧
    64 * ((utf8Encode 200).getD 0 0 - 192) + ((utf8Encode 200).getD 1 0 - 128) = 200 :=
  ⟨output_emits_utf8.1 (State.mk [65] 0 []) 65 rfl,
   output_emits_utf8.2.1 65 (by decide),
   (output_emits_utf8.2.2.1 200 (by decide) (by decide)).1,
   (output_emits_utf8.2.2.1 200 (by decide) (by decide)).2⟩

/-- C10: the tape starts as a single zero cell with the cursor on it, and
each state-mutating tape operation keeps the cursor a valid index into the
cell sequence and never shrinks the cell sequence. (`output` and `cond`
do not touch the state at all: in this model they are plain functions of
it.) -/
theorem tape_cursor_invariant :
    (∀ inp, State.new inp = State.mk [0] 0 inp) ∧
    (∀ s : State, s.index < s.state.length →
      (s.shift_left.index < s.shift_left.state.length ∧
        s.state.length ≤ s.shift_left.state.length) ∧
      (s.shiht_right.index < s.shiht_right.state.length ∧
        s.state.length ≤ s.shiht_right.state.length) ∧
      (s.increment.index < s.increment.state.length ∧
        s.state.length ≤ s.increment.state.length) ∧
      (s.decrement.index < s.decrement.state.length ∧
        s.state.length ≤ s.decrement.state.length) ∧
      (s.input.index < s.input.state.length ∧
        s.state.length ≤ s.input.state.length)) := by
  refine ⟨fun inp => rfl, ?_⟩
  intro s h
  refine ⟨?_, ?_, ?_, ?_, ?_⟩
  · unfold State.shift_left
    rcases hi : s.index with _ | n <;> simp
    omega
  · unfold State.shiht_right
    split <;> simp <;> omega
  · unfold State.increment
    simp
    omega
  · unfold State.decrement
    simp
    omega
  · obtain ⟨st, i, inp⟩ := s
    simp only at h
    rcases inp with _ | ⟨b, rest⟩
    · simp only [State.input]
      split
      · exact ⟨h, le_refl _⟩
      · exact ⟨h, le_refl _⟩
    · simp only [State.input]
      split <;> simp_all

/-- Witness for `tape_cursor_invariant` at the fresh one-cell tape. -/
theorem tape_cursor_invariant_inst :
    ((State.new []).shift_left.index < (State.new []).shift_left.state.length ∧
      (State.new []).state.length ≤ (State.new []).shift_left.state.length) ∧
    ((State.new []).shiht_right.index < (State.new []).shiht_right.state.length ∧
      (State.new []).state.length ≤ (State.new []).shiht_right.state.length) ∧
    ((State.new []).increment.index < (State.new []).increment.state.length ∧
      (State.new []).state.length ≤ (State.new []).increment.state.length) ∧
    ((State.new []).decrement.index < (State.new []).decrement.state.length ∧
      (State.new []).state.length ≤ (State.new []).decrement.state.length) ∧
    ((State.new []).input.index < (State.new []).input.state.length ∧
      (State.new []).state.length ≤ (State.new []).input.state.length) :=
  tape_cursor_invariant.2 (State.new []) (by decide)

/-- C7: an unrecognized character makes `from_brainfuck` abort fatally,
and a word pair matching no dispatch arm — the eight-pair table misses,
or the pair is `LOOP_END` at dispatch level, where no matching
`LOOP_START` consumed it — makes `run` abort with the `Invalid token`
panic the moment it is dispatched, emitting nothing from that point on;
this holds at any nesting depth because a loop body is driven by the same
`run`. -/
theorem invalid_symbol_aborts :
    (∀ (cs : List Char) (c : Char), c ∈ cs → charToPair c = none →
      from_brainfuck cs = none) ∧
    (∀ (fuel : Nat) (t1 t2 : Token) (rest : List Token) (s : State),
      pairToOp t1 t2 = none ∨ (t1, t2) = LOOP_END →
      run (fuel + 1) (t1 :: t2 :: rest) s = .invalidToken []) := by
  constructor
  · intro cs c hc h
    rw [from_brainfuck, mapOpt_none_of_mem hc h]
    rfl
  · intro fuel t1 t2 rest s h
    rcases h with h | h
    · obtain ⟨h1, h2, h3, h4, h5, h6, h7⟩ := pairToOp_none_elim h
      simp only [run, next2]
      rw [if_neg h1, if_neg h2, if_neg h3, if_neg h4, if_neg h5, if_neg h6, if_neg h7]
    · have e1 : t1 = wNew := congrArg Prod.fst h
      have e2 : t2 = wNew := congrArg Prod.snd h
      subst e1
      subst e2
      rfl

/-- Witness for `invalid_symbol_aborts`: the character `a` kills the
Brainfuck lexer, and a top-level `LOOP_END` pair kills the run. -/
theorem invalid_symbol_aborts_inst :
    from_brainfuck ['a'] = none ∧
    run 1 [wNew, wNew] (State.new []) = .invalidToken [] :=
  ⟨invalid_symbol_aborts.1 ['a'] 'a' (by decide) rfl,
   invalid_symbol_aborts.2 0 wNew wNew [] (State.new []) (Or.inr rfl)⟩

theorem collectBody_unterminated :
    ∀ (depth : Nat) (ts : List Token), unterminatedB depth ts = true →
      collectBody depth ts = (collectPairs ts, []) := by
  intro depth ts
  induction depth, ts using unterminatedB.induct with
  | case1 d => intro _; rfl
  | case2 d t => intro _; rfl
  | case3 d t1 t2 rest hls ih =>
    intro h
    rw [unterminatedB, if_pos hls] at h
    simp only [collectBody, if_pos hls, ih h, collectPairs]
  | case4 t1 t2 rest hls hle =>
    intro h
    rw [unterminatedB, if_neg hls, if_pos hle, if_pos rfl] at h
    exact absurd h (by simp)
  | case5 d t1 t2 rest hls hle hd ih =>
    intro h
    rw [unterminatedB, if_neg hls, if_pos hle, if_neg hd] at h
    simp only [collectBody, if_neg hls, if_pos hle, if_neg hd, ih h, collectPairs]
  | case6 d t1 t2 rest hls hle ih =>
    intro h
    rw [unterminatedB, if_neg hls, if_neg hle] at h
    simp only [collectBody, if_neg hls, if_neg hle, ih h, collectPairs]

/-- C9: when the forward scan of a `LOOP_START` exhausts the Program
before the nesting depth returns to 0, the loop silently uses exactly the
pairwise-collected remainder of the Program as its body — the scan
consumes everything, no error is raised, and the run resumes (on the now
empty stream, which ends normally) after the loop finishes. -/
theorem unterminated_loop_tolerated :
    (∀ (depth : Nat) (ts : List Token), unterminatedB depth ts = true →
      collectBody depth ts = (collectPairs ts, [])) ∧
    (∀ (fuel : Nat) (ts : List Token) (s : State),
      unterminatedB 1 ts = true →
      run (fuel + 1) (LOOP_START.1 :: LOOP_START.2 :: ts) s =
        loopCont (run fuel) [] (doWhile fuel (collectPairs ts) s)) ∧
    (∀ (fuel : Nat) (s : State), run (fuel + 1) [] s = .ok s []) := by
  refine ⟨collectBody_unterminated, ?_, fun fuel s => rfl⟩
  intro fuel ts s h
  have hc := collectBody_unterminated 1 ts h
  show loopCont (run fuel) (collectBody 1 ts).2
        (doWhileF (run fuel) fuel (collectBody 1 ts).1 s) = _
  rw [hc]
  rfl

/-- Witness for `unterminated_loop_tolerated`: a `LOOP_START` followed by
a single Output pair and no terminator. -/
theorem unterminated_loop_tolerated_inst :
    run 3 [wHappy, wHappy, wYear, wNew] (State.new []) =
      loopCont (run 2) [] (doWhile 2 (collectPairs [wYear, wNew]) (State.new [])) :=
  unterminated_loop_tolerated.2.1 2 [wYear, wNew] (State.new []) (by decide)

theorem charToPair_good {c : Char} {p : Token × Token}
    (h : charToPair c = some p) : goodTok p.1 ∧ goodTok p.2 := by
  unfold charToPair at h
  split at h <;> first
    | (cases h; exact ⟨by constructor <;> decide, by constructor <;> decide⟩)
    | cases h

theorem splitAux_word (w : List Char) :
    ∀ (rest acc : List Char), (∀ c ∈ w, c.isWhitespace = false) →
      splitWhitespaceAux (w ++ rest) acc =
        splitWhitespaceAux rest (w.reverse ++ acc) := by
  induction w with
  | nil => intro rest acc _; simp
  | cons c w' ih =>
    intro rest acc h
    have hc : c.isWhitespace = false := h c (List.mem_cons_self c w')
    have h' : ∀ d ∈ w', d.isWhitespace = false :=
      fun d hd => h d (List.mem_cons_of_mem c hd)
    simp only [List.cons_append, splitWhitespaceAux, hc, Bool.false_eq_true,
      if_false, List.append_eq]
    rw [ih rest (c :: acc) h']
    simp

theorem split_word_sep {w : Token} (rest : List Char) (hw : goodTok w) :
    splitWhitespace (w ++ ' ' :: rest) = w :: splitWhitespace rest := by
  unfold splitWhitespace
  rw [splitAux_word w (' ' :: rest) [] hw.2]
  have hne : w.reverse ++ [] ≠ [] := by
    simp only [List.append_nil]
    exact fun e => hw.1 (by simpa using congrArg List.reverse e)
  simp only [splitWhitespaceAux, List.append_nil]
  rw [if_pos (by decide), if_neg (by simpa using hne)]
  simp

theorem split_word_end {w : Token} (hw : goodTok w) :
    splitWhitespace w = [w] := by
  unfold splitWhitespace
  rw [← List.append_nil w, splitAux_word w [] [] hw.2]
  simp only [splitWhitespaceAux, List.append_nil]
  rw [if_neg (fun e => hw.1 (by simpa using congrArg List.reverse e))]
  simp

theorem splitJoin :
    ∀ ps : List (Token × Token), (∀ p ∈ ps, goodTok p.1 ∧ goodTok p.2) →
      splitWhitespace (hnyCode ps) = pairTokens ps := by
  intro ps
  induction ps with
  | nil => intro _; rfl
  | cons p qs ih =>
    intro h
    have hp := h p (List.mem_cons_self p qs)
    cases qs with
    | nil =>
      show splitWhitespace (renderPair p) = _
      rw [renderPair, split_word_sep _ hp.1, split_word_end hp.2]
      rfl
    | cons q rest =>
      have hq : ∀ r ∈ q :: rest, goodTok r.1 ∧ goodTok r.2 :=
        fun r hr => h r (List.mem_cons_of_mem p hr)
      have hstep : hnyCode (p :: q :: rest) =
          p.1 ++ ' ' :: (p.2 ++ ' ' :: hnyCode (q :: rest)) := by
        show renderPair p ++ ' ' :: joinSpace ((q :: rest).map renderPair) = _
        rw [renderPair]
        simp [List.append_assoc, hnyCode]
      rw [hstep, split_word_sep _ hp.1, split_word_sep _ hp.2, ih hq]
      rfl

theorem lexPairs_pairTokens :
    ∀ (ps : List (Token × Token)) (ops : List Opcode),
      mapOpt (fun p => pairToOp p.1 p.2) ps = some ops →
      lexPairs (pairTokens ps) = some ops := by
  intro ps
  induction ps with
  | nil =>
    intro ops h
    cases h
    rfl
  | cons p qs ih =>
    intro ops h
    simp only [mapOpt] at h
    cases hp : pairToOp p.1 p.2 with
    | none => rw [hp] at h; cases h
    | some op =>
      rw [hp] at h
      cases hqs : mapOpt (fun p => pairToOp p.1 p.2) qs with
      | none => rw [hqs] at h; cases h
      | some ops' =>
        rw [hqs] at h
        cases h
        simp only [pairTokens, lexPairs, hp, ih ops' hqs]

theorem mapOpt_charToOp_split :
    ∀ (cs : List Char) (ops : List Opcode), mapOpt charToOp cs = some ops →
      ∃ ps, mapOpt charToPair cs = some ps ∧
        (∀ p ∈ ps, goodTok p.1 ∧ goodTok p.2) ∧
        mapOpt (fun p => pairToOp p.1 p.2) ps = some ops := by
  intro cs
  induction cs with
  | nil =>
    intro ops h
    cases h
    refine ⟨[], rfl, ?_, rfl⟩
    intro p hp
    cases hp
  | cons c cs' ih =>
    intro ops h
    simp only [mapOpt] at h
    cases hco : charToOp c with
    | none => rw [hco] at h; cases h
    | some op =>
      rw [hco] at h
      cases hrest : mapOpt charToOp cs' with
      | none => rw [hrest] at h; cases h
      | some ops' =>
        rw [hrest] at h
        cases h
        obtain ⟨ps', hps', hgood', hlex'⟩ := ih ops' hrest
        cases hcp : charToPair c with
        | none => rw [charToOp, hcp] at hco; cases hco
        | some p =>
          rw [charToOp, hcp] at hco
          have hpo : pairToOp p.1 p.2 = some op := by simpa using hco
          refine ⟨p :: ps', ?_, ?_, ?_⟩
          · simp only [mapOpt, hcp, hps']
          · intro r hr
            rcases List.mem_cons.mp hr with rfl | hr'
            · exact charToPair_good hcp
            · exact hgood' r hr'
          · simp only [mapOpt, hpo, hlex']

/-- C2: for a Brainfuck source made only of the eight recognized
characters (i.e. one the character table lexes to some opcode list),
rendering each mapped opcode into its two-word pair, joining the words
with spaces and re-lexing the result through the word-pair path
(`from_brainfuck` followed by pairwise lexing) yields exactly the opcode
list the character table produced. -/
theorem brainfuck_word_pair_roundtrip (cs : List Char) (ops : List Opcode)
    (h : mapOpt charToOp cs = some ops) :
    (from_brainfuck cs).bind lexPairs = some ops := by
  obtain ⟨ps, hps, hgood, hlex⟩ := mapOpt_charToOp_split cs ops h
  rw [from_brainfuck, hps]
  show lexPairs (splitWhitespace (hnyCode ps)) = some ops
  rw [splitJoin ps hgood]
  exact lexPairs_pairTokens ps ops hlex

/-- Witness for `brainfuck_word_pair_roundtrip` on the source `+[>.]`. -/
theorem brainfuck_word_pair_roundtrip_inst :
    (from_brainfuck ['+', '[', '>', '.', ']']).bind lexPairs =
      some [.increment, .loopStart, .shiftRight, .output, .loopEnd] :=
  brainfuck_word_pair_roundtrip ['+', '[', '>', '.', ']']
    [.increment, .loopStart, .shiftRight, .output, .loopEnd] (by decide)

theorem withOut_fuelOut_iff {b : List Nat} {o : Outcome} :
    o.withOut b = .fuelOut ↔ o = .fuelOut := by
  cases o <;> simp [Outcome.withOut]

theorem withOut_ok_iff {b out : List Nat} {o : Outcome} {s : State} :
    o.withOut b = .ok s out ↔ ∃ out', o = .ok s out' ∧ out = b ++ out' := by
  cases o with
  | ok s1 o1 =>
    simp only [Outcome.withOut, Outcome.ok.injEq]
    constructor
    · rintro ⟨rfl, rfl⟩
      exact ⟨o1, ⟨rfl, rfl⟩, rfl⟩
    · rintro ⟨out', ⟨rfl, rfl⟩, rfl⟩
      exact ⟨rfl, rfl⟩
  | invalidToken o1 => simp [Outcome.withOut]
  | fuelOut => simp [Outcome.withOut]

theorem doWhileF_mono :
    ∀ (k k' : Nat) (r₁ r₂ : List Token → State → Outcome),
      (∀ b st, r₁ b st ≠ .fuelOut → r₂ b st = r₁ b st) → k ≤ k' →
      ∀ (b : List Token) (st : State), doWhileF r₁ k b st ≠ .fuelOut →
        doWhileF r₂ k' b st = doWhileF r₁ k b st := by
  intro k
  induction k with
  | zero => intro k' r₁ r₂ hr hk b st h; exact absurd rfl h
  | succ k ih =>
    intro k' r₁ r₂ hr hk b st h
    cases k' with
    | zero => omega
    | succ k'' =>
      have hk'' : k ≤ k'' := by omega
      simp only [doWhileF] at h ⊢
      cases hrun : r₁ b st with
      | ok s' out =>
        simp only [hrun] at h
        rw [hr b st (by rw [hrun]; exact fun e => Outcome.noConfusion e)]
        simp only [hrun]
        by_cases hc : s'.cond
        · rw [if_pos hc] at h
          simp only [if_pos hc]
          rw [ih k'' r₁ r₂ hr hk'' b s' (fun e => h (withOut_fuelOut_iff.mpr e))]
        · simp only [if_neg hc]
      | invalidToken out =>
        rw [hr b st (by rw [hrun]; exact fun e => Outcome.noConfusion e)]
        simp only [hrun]
      | fuelOut =>
        simp only [hrun] at h
        exact absurd rfl h

theorem run_mono :
    ∀ fuel fuel' : Nat, fuel ≤ fuel' →
      ∀ (ts : List Token) (s : State), run fuel ts s ≠ .fuelOut →
        run fuel' ts s = run fuel ts s := by
  intro fuel
  induction fuel with
  | zero => intro fuel' h ts s hne; exact absurd rfl hne
  | succ fuel ih =>
    intro fuel' hle ts s hne
    cases fuel' with
    | zero => omega
    | succ fuel'' =>
      have hle'' : fuel ≤ fuel'' := by omega
      cases ts with
      | nil => rfl
      | cons t1 ts' =>
        cases ts' with
        | nil => rfl
        | cons t2 rest =>
          simp only [run, next2] at hne ⊢
          by_cases h1 : (t1, t2) = SHIFT_LEFT
          · rw [if_pos h1] at hne
            simp only [if_pos h1]
            exact ih fuel'' hle'' rest s.shift_left hne
          rw [if_neg h1] at hne
          simp only [if_neg h1]
          by_cases h2 : (t1, t2) = SHIFT_RIGHT
          · rw [if_pos h2] at hne
            simp only [if_pos h2]
            exact ih fuel'' hle'' rest s.shiht_right hne
          rw [if_neg h2] at hne
          simp only [if_neg h2]
          by_cases h3 : (t1, t2) = INCREMENT
          · rw [if_pos h3] at hne
            simp only [if_pos h3]
            exact ih fuel'' hle'' rest s.increment hne
          rw [if_neg h3] at hne
          simp only [if_neg h3]
          by_cases h4 : (t1, t2) = DECREMENT
          · rw [if_pos h4] at hne
            simp only [if_pos h4]
            exact ih fuel'' hle'' rest s.decrement hne
          rw [if_neg h4] at hne
          simp only [if_neg h4]
          by_cases h5 : (t1, t2) = OUTPUT
          · rw [if_pos h5] at hne
            simp only [if_pos h5]
            rw [ih fuel'' hle'' rest s (fun e => hne (withOut_fuelOut_iff.mpr e))]
          rw [if_neg h5] at hne
          simp only [if_neg h5]
          by_cases h6 : (t1, t2) = INPUT
          · rw [if_pos h6] at hne
            simp only [if_pos h6]
            exact ih fuel'' hle'' rest s.input hne
          rw [if_neg h6] at hne
          simp only [if_neg h6]
          by_cases h7 : (t1, t2) = LOOP_START
          · rw [if_pos h7] at hne
            simp only [if_pos h7]
            have hnf : doWhileF (run fuel) fuel (collectBody 1 rest).1 s ≠
                .fuelOut := by
              intro e
              simp only [e, loopCont] at hne
              exact hne rfl
            have hmono := doWhileF_mono fuel fuel'' (run fuel) (run fuel'')
              (fun b st hb => ih fuel'' hle'' b st hb) hle''
              (collectBody 1 rest).1 s hnf
            rw [hmono]
            cases hdw : doWhileF (run fuel) fuel (collectBody 1 rest).1 s with
            | ok s' out =>
              simp only [hdw, loopCont] at hne
              simp only [loopCont]
              rw [ih fuel'' hle'' (collectBody 1 rest).2 s'
                (fun e => hne (withOut_fuelOut_iff.mpr e))]
            | invalidToken out => simp only [loopCont]
            | fuelOut => exact absurd hdw hnf
          rw [if_neg h7] at hne
          simp only [if_neg h7]

theorem doWhileF_ok_iterates :
    ∀ (k fuel : Nat) (body : List Token) (s s' : State) (out : List Nat),
      doWhileF (run fuel) k body s = .ok s' out → Iterates body s s' out := by
  intro k
  induction k with
  | zero => intro fuel body s s' out h; cases h
  | succ k ih =>
    intro fuel body s s' out h
    simp only [doWhileF] at h
    cases hrun : run fuel body s with
    | ok s₁ out₁ =>
      simp only [hrun] at h
      by_cases hc : s₁.cond
      · rw [if_pos hc] at h
        obtain ⟨out₂, hdw, rfl⟩ := withOut_ok_iff.mp h
        exact Iterates.step s s₁ s' out₁ out₂ ⟨fuel, hrun⟩ hc
          (ih fuel body s₁ s' out₂ hdw)
      · rw [if_neg hc] at h
        cases h
        exact Iterates.last s s' out ⟨fuel, hrun⟩ (by simpa using hc)
    | invalidToken out₁ =>
      simp only [hrun] at h
      cases h
    | fuelOut =>
      simp only [hrun] at h
      cases h

theorem iterates_doWhile :
    ∀ (body : List Token) (s s' : State) (out : List Nat),
      Iterates body s s' out → ∃ fuel, doWhile fuel body s = .ok s' out := by
  intro body s s' out h
  induction h with
  | last s₀ s₁ out₀ hex hc =>
    obtain ⟨f₀, hr⟩ := hex
    refine ⟨f₀ + 1, ?_⟩
    rw [doWhile]
    simp only [doWhileF]
    rw [run_mono f₀ (f₀ + 1) (by omega) body s₀
      (by rw [hr]; exact fun e => Outcome.noConfusion e), hr]
    simp [hc]
  | step s₀ s₁ s₂ out₁ out₂ hex hc hiter ih =>
    obtain ⟨f₁, hr⟩ := hex
    obtain ⟨f₂, hdw⟩ := ih
    rw [doWhile] at hdw
    refine ⟨max f₁ f₂ + 1, ?_⟩
    rw [doWhile]
    simp only [doWhileF]
    rw [run_mono f₁ (max f₁ f₂ + 1) (by omega) body s₀
      (by rw [hr]; exact fun e => Outcome.noConfusion e), hr]
    simp only [hc, if_true]
    have hstep : doWhileF (run (max f₁ f₂ + 1)) (max f₁ f₂) body s₁ =
        .ok s₂ out₂ := by
      rw [doWhileF_mono f₂ (max f₁ f₂) (run f₂) (run (max f₁ f₂ + 1))
        (fun b st hb => run_mono f₂ (max f₁ f₂ + 1) (by omega) b st hb)
        (by omega) body s₁
        (by rw [hdw]; exact fun e => Outcome.noConfusion e), hdw]
    rw [hstep]
    rfl

/-- C1: dispatching a `LOOP_START` drives the collected body as a
do-while: a completed loop is exactly a sequence of one or more full
passes over the body, each pass re-run from the start of the body while
the cell at the current cursor is non-zero afterwards, stopping at the
first pass after which it is zero (first conjunct, both directions via
`Iterates`). The second conjunct ties the dispatch of `LOOP_START` to
that driver, and the third runs the token form of `[>+<]` from a fresh
tape: the guard cell is zero on entry, yet the body executes once,
leaving the tape `[0, 1]` (do-while, not a pre-checked loop). -/
theorem do_while_loop_semantics :
    (∀ (body : List Token) (s s' : State) (out : List Nat),
      (∃ fuel, doWhile fuel body s = .ok s' out) ↔ Iterates body s s' out) ∧
    (∀ (fuel : Nat) (ts : List Token) (s : State),
      run (fuel + 1) (LOOP_START.1 :: LOOP_START.2 :: ts) s =
        loopCont (run fuel) (collectBody 1 ts).2
          (doWhile fuel (collectBody 1 ts).1 s)) ∧
    run 10 [wHappy, wHappy, wNew, wYear, wYear, wHappy, wHappy, wNew, wNew, wNew]
      (State.new []) = .ok (State.mk [0, 1] 0 []) [] := by
  refine ⟨?_, fun fuel ts s => rfl, by decide⟩
  intro body s s' out
  constructor
  · rintro ⟨fuel, h⟩
    exact doWhileF_ok_iterates fuel fuel body s s' out h
  · exact iterates_doWhile body s s' out

/-- Witness for `do_while_loop_semantics`: the empty body iterates once
from the fresh state. -/
theorem do_while_loop_semantics_inst :
    Iterates [] (State.new []) (State.new []) [] :=
  (do_while_loop_semantics.1 [] (State.new []) (State.new []) []).mp
    ⟨2, by decide⟩
